import Mathlib

/-!
Verification of the geometric core of the Document-Scanner-using-OpenCV
repository (`src/scanner.ipynb`).

The notebook defines three functions: `order_points`, `four_point_transform`
and `scan_document`.  Coordinates are modelled by rational numbers (the code
works with `float32`); OpenCV library primitives (blur, Canny, contour trace,
Douglas-Peucker simplification, perspective warp, adaptive threshold) are
external collaborators and are modelled as parameters bundled in a `CVOps`
record, while everything the notebook itself computes (corner ordering,
argmin/argmax selection, contour sorting and the first-match loop, destination
size arithmetic, the branch structure and the returned values of
`scan_document`) is embedded directly.
-/

namespace DocScanner

/-- A 2-D point in image space, with rational coordinates (the code stores
`float32` pairs `(x, y)`). -/
structure Point where
  x : ℚ
  y : ℚ
deriving DecidableEq, Repr

/-- Four points, modelling the `(4, 2)` arrays that `order_points` consumes and
produces.  Field `pi` is row `i` of the array. -/
structure Quad where
  p0 : Point
  p1 : Point
  p2 : Point
  p3 : Point
deriving DecidableEq, Repr

/-- Row selector for a 4-element tuple. -/
def nth4 {α : Type} (a b c d : α) : Fin 4 → α :=
  fun i => match i with
  | ⟨0, _⟩ => a
  | ⟨1, _⟩ => b
  | ⟨2, _⟩ => c
  | ⟨3, _⟩ => d

/-- Row `i` of the quad. -/
def Quad.get (q : Quad) : Fin 4 → Point :=
  nth4 q.p0 q.p1 q.p2 q.p3

/-- The rows of the quad, as a list. -/
def Quad.toList (q : Quad) : List Point :=
  [q.p0, q.p1, q.p2, q.p3]

/-- `pts.sum(axis=1)` for one row `[x, y]`: the coordinate sum `x + y`. -/
def Point.psum (p : Point) : ℚ := p.x + p.y

/-- `np.diff(pts, axis=1)` for one row `[x, y]`: the difference `y - x`
(NumPy subtracts the first column from the second). -/
def Point.pdiff (p : Point) : ℚ := p.y - p.x

/-- `np.argmin` on the 4-vector `[a, b, c, d]`: index of the first occurrence
of the minimum. -/
def argmin4 (a b c d : ℚ) : Fin 4 :=
  if a ≤ b ∧ a ≤ c ∧ a ≤ d then 0
  else if b ≤ c ∧ b ≤ d then 1
  else if c ≤ d then 2
  else 3

/-- `np.argmax` on the 4-vector `[a, b, c, d]`: index of the first occurrence
of the maximum. -/
def argmax4 (a b c d : ℚ) : Fin 4 :=
  if b ≤ a ∧ c ≤ a ∧ d ≤ a then 0
  else if c ≤ b ∧ d ≤ b then 1
  else if d ≤ c then 2
  else 3

/-- `order_points(pts)` from the notebook:
`rect[0] = pts[argmin(s)]`, `rect[2] = pts[argmax(s)]` with `s = pts.sum(axis=1)`,
`rect[1] = pts[argmin(diff)]`, `rect[3] = pts[argmax(diff)]` with
`diff = np.diff(pts, axis=1)` (the per-row value `y - x`).
The result is read as (top-left, top-right, bottom-right, bottom-left). -/
def order_points (q : Quad) : Quad :=
  { p0 := q.get (argmin4 (q.get 0).psum (q.get 1).psum (q.get 2).psum (q.get 3).psum)
    p1 := q.get (argmin4 (q.get 0).pdiff (q.get 1).pdiff (q.get 2).pdiff (q.get 3).pdiff)
    p2 := q.get (argmax4 (q.get 0).psum (q.get 1).psum (q.get 2).psum (q.get 3).psum)
    p3 := q.get (argmax4 (q.get 0).pdiff (q.get 1).pdiff (q.get 2).pdiff (q.get 3).pdiff) }

lemma nth4_comp {α : Type} (v : Fin 4 → α) (i : Fin 4) :
    nth4 (v 0) (v 1) (v 2) (v 3) i = v i := by
  fin_cases i <;> rfl

/-- The value at the index picked by `argmin4` is a lower bound for all four
entries. -/
lemma argmin4_le (a b c d : ℚ) :
    nth4 a b c d (argmin4 a b c d) ≤ a ∧ nth4 a b c d (argmin4 a b c d) ≤ b ∧
    nth4 a b c d (argmin4 a b c d) ≤ c ∧ nth4 a b c d (argmin4 a b c d) ≤ d := by
  unfold argmin4
  split_ifs with h1 h2 h3
  · exact ⟨le_refl a, h1.1, h1.2.1, h1.2.2⟩
  · push_neg at h1
    have hba : b ≤ a := by
      by_contra hab
      push_neg at hab
      have := h1 (le_of_lt hab) (le_trans (le_of_lt hab) h2.1)
      linarith [h2.2]
    exact ⟨hba, le_refl b, h2.1, h2.2⟩
  · push_neg at h1 h2
    have hcb : c ≤ b := by
      by_contra hbc
      push_neg at hbc
      have := h2 (le_of_lt hbc)
      linarith
    have hca : c ≤ a := by
      by_contra hac
      push_neg at hac
      have := h1 (by linarith) (le_of_lt hac)
      linarith
    exact ⟨hca, hcb, le_refl c, h3⟩
  · push_neg at h1 h2 h3
    have hdb : d ≤ b := by
      by_contra hbd
      push_neg at hbd
      have := h2 (by linarith)
      linarith
    have hda : d ≤ a := by
      by_contra had
      push_neg at had
      have := h1 (by linarith) (by linarith)
      linarith
    exact ⟨hda, hdb, le_of_lt h3, le_refl d⟩

/-- The value at the index picked by `argmax4` is an upper bound for all four
entries. -/
lemma le_argmax4 (a b c d : ℚ) :
    a ≤ nth4 a b c d (argmax4 a b c d) ∧ b ≤ nth4 a b c d (argmax4 a b c d) ∧
    c ≤ nth4 a b c d (argmax4 a b c d) ∧ d ≤ nth4 a b c d (argmax4 a b c d) := by
  unfold argmax4
  split_ifs with h1 h2 h3
  · exact ⟨le_refl a, h1.1, h1.2.1, h1.2.2⟩
  · push_neg at h1
    have hab : a ≤ b := by
      by_contra hba
      push_neg at hba
      have := h1 (le_of_lt hba) (le_trans h2.1 (le_of_lt hba))
      linarith [h2.2]
    exact ⟨hab, le_refl b, h2.1, h2.2⟩
  · push_neg at h1 h2
    have hbc : b ≤ c := by
      by_contra hcb
      push_neg at hcb
      have := h2 (le_of_lt hcb)
      linarith
    have hac : a ≤ c := by
      by_contra hca
      push_neg at hca
      have := h1 (by linarith) (le_of_lt hca)
      linarith
    exact ⟨hac, hbc, le_refl c, h3⟩
  · push_neg at h1 h2 h3
    have hbd : b ≤ d := by
      by_contra hdb
      push_neg at hdb
      have := h2 (by linarith)
      linarith
    have had : a ≤ d := by
      by_contra hda
      push_neg at hda
      have := h1 (by linarith) (by linarith)
      linarith
    exact ⟨had, hbd, le_of_lt h3, le_refl d⟩

lemma nth4_zero {α : Type} (a b c d : α) : nth4 a b c d 0 = a := rfl

lemma nth4_one {α : Type} (a b c d : α) : nth4 a b c d 1 = b := rfl

lemma nth4_two {α : Type} (a b c d : α) : nth4 a b c d 2 = c := rfl

lemma nth4_three {α : Type} (a b c d : α) : nth4 a b c d 3 = d := rfl

lemma argmin4_eq_zero {a b c d : ℚ} (h1 : a < b) (h2 : a < c) (h3 : a < d) :
    argmin4 a b c d = 0 := by
  unfold argmin4
  rw [if_pos ⟨le_of_lt h1, le_of_lt h2, le_of_lt h3⟩]

lemma argmin4_eq_one {a b c d : ℚ} (h1 : b < a) (h2 : b < c) (h3 : b < d) :
    argmin4 a b c d = 1 := by
  have hn : ¬(a ≤ b ∧ a ≤ c ∧ a ≤ d) := by
    rintro ⟨hab, -, -⟩
    linarith
  unfold argmin4
  rw [if_neg hn, if_pos ⟨le_of_lt h2, le_of_lt h3⟩]

lemma argmin4_eq_two {a b c d : ℚ} (h1 : c < a) (h2 : c < b) (h3 : c < d) :
    argmin4 a b c d = 2 := by
  have hn1 : ¬(a ≤ b ∧ a ≤ c ∧ a ≤ d) := by
    rintro ⟨-, hac, -⟩
    linarith
  have hn2 : ¬(b ≤ c ∧ b ≤ d) := by
    rintro ⟨hbc, -⟩
    linarith
  unfold argmin4
  rw [if_neg hn1, if_neg hn2, if_pos (le_of_lt h3)]

lemma argmin4_eq_three {a b c d : ℚ} (h1 : d < a) (h2 : d < b) (h3 : d < c) :
    argmin4 a b c d = 3 := by
  have hn1 : ¬(a ≤ b ∧ a ≤ c ∧ a ≤ d) := by
    rintro ⟨-, -, had⟩
    linarith
  have hn2 : ¬(b ≤ c ∧ b ≤ d) := by
    rintro ⟨-, hbd⟩
    linarith
  have hn3 : ¬(c ≤ d) := by
    intro hcd
    linarith
  unfold argmin4
  rw [if_neg hn1, if_neg hn2, if_neg hn3]

lemma argmax4_eq_zero {a b c d : ℚ} (h1 : b < a) (h2 : c < a) (h3 : d < a) :
    argmax4 a b c d = 0 := by
  unfold argmax4
  rw [if_pos ⟨le_of_lt h1, le_of_lt h2, le_of_lt h3⟩]

lemma argmax4_eq_one {a b c d : ℚ} (h1 : a < b) (h2 : c < b) (h3 : d < b) :
    argmax4 a b c d = 1 := by
  have hn : ¬(b ≤ a ∧ c ≤ a ∧ d ≤ a) := by
    rintro ⟨hba, -, -⟩
    linarith
  unfold argmax4
  rw [if_neg hn, if_pos ⟨le_of_lt h2, le_of_lt h3⟩]

lemma argmax4_eq_two {a b c d : ℚ} (h1 : a < c) (h2 : b < c) (h3 : d < c) :
    argmax4 a b c d = 2 := by
  have hn1 : ¬(b ≤ a ∧ c ≤ a ∧ d ≤ a) := by
    rintro ⟨-, hca, -⟩
    linarith
  have hn2 : ¬(c ≤ b ∧ d ≤ b) := by
    rintro ⟨hcb, -⟩
    linarith
  unfold argmax4
  rw [if_neg hn1, if_neg hn2, if_pos (le_of_lt h3)]

lemma argmax4_eq_three {a b c d : ℚ} (h1 : a < d) (h2 : b < d) (h3 : c < d) :
    argmax4 a b c d = 3 := by
  have hn1 : ¬(b ≤ a ∧ c ≤ a ∧ d ≤ a) := by
    rintro ⟨-, -, hda⟩
    linarith
  have hn2 : ¬(c ≤ b ∧ d ≤ b) := by
    rintro ⟨-, hdb⟩
    linarith
  have hn3 : ¬(d ≤ c) := by
    intro hdc
    linarith
  unfold argmax4
  rw [if_neg hn1, if_neg hn2, if_neg hn3]

/-- If `v i` is strictly below every other entry, `argmin4` picks `i`. -/
lemma argmin4_eq (v : Fin 4 → ℚ) (i : Fin 4) (h : ∀ j, j ≠ i → v i < v j) :
    argmin4 (v 0) (v 1) (v 2) (v 3) = i := by
  fin_cases i
  · exact argmin4_eq_zero (h 1 (by decide)) (h 2 (by decide)) (h 3 (by decide))
  · exact argmin4_eq_one (h 0 (by decide)) (h 2 (by decide)) (h 3 (by decide))
  · exact argmin4_eq_two (h 0 (by decide)) (h 1 (by decide)) (h 3 (by decide))
  · exact argmin4_eq_three (h 0 (by decide)) (h 1 (by decide)) (h 2 (by decide))

/-- If `v i` is strictly above every other entry, `argmax4` picks `i`. -/
lemma argmax4_eq (v : Fin 4 → ℚ) (i : Fin 4) (h : ∀ j, j ≠ i → v j < v i) :
    argmax4 (v 0) (v 1) (v 2) (v 3) = i := by
  fin_cases i
  · exact argmax4_eq_zero (h 1 (by decide)) (h 2 (by decide)) (h 3 (by decide))
  · exact argmax4_eq_one (h 0 (by decide)) (h 2 (by decide)) (h 3 (by decide))
  · exact argmax4_eq_two (h 0 (by decide)) (h 1 (by decide)) (h 3 (by decide))
  · exact argmax4_eq_three (h 0 (by decide)) (h 1 (by decide)) (h 2 (by decide))

/-- Four pairwise-distinct indices of `Fin 4` enumerate all of `Fin 4`. -/
lemma fin4_perm : ∀ (i0 i1 i2 i3 : Fin 4), i0 ≠ i1 → i0 ≠ i2 → i0 ≠ i3 →
    i1 ≠ i2 → i1 ≠ i3 → i2 ≠ i3 →
    ([i0, i1, i2, i3] : List (Fin 4)).Perm [0, 1, 2, 3] := by
  decide

/-- The coordinate sum of an indexed row, written through `nth4`. -/
lemma psum_nth4 (q : Quad) (i : Fin 4) :
    (q.get i).psum =
      nth4 (q.get 0).psum (q.get 1).psum (q.get 2).psum (q.get 3).psum i := by
  fin_cases i <;> rfl

/-- The coordinate difference of an indexed row, written through `nth4`. -/
lemma pdiff_nth4 (q : Quad) (i : Fin 4) :
    (q.get i).pdiff =
      nth4 (q.get 0).pdiff (q.get 1).pdiff (q.get 2).pdiff (q.get 3).pdiff i := by
  fin_cases i <;> rfl

/-- C6: for every 4-point input, row 0 of the `order_points` output (top-left)
has the minimal coordinate sum `x + y` among the four input points, and row 2
(bottom-right) the maximal one. -/
theorem order_points_sum_extremes (q : Quad) :
    ((order_points q).p0.psum ≤ q.p0.psum ∧ (order_points q).p0.psum ≤ q.p1.psum ∧
      (order_points q).p0.psum ≤ q.p2.psum ∧ (order_points q).p0.psum ≤ q.p3.psum) ∧
    (q.p0.psum ≤ (order_points q).p2.psum ∧ q.p1.psum ≤ (order_points q).p2.psum ∧
      q.p2.psum ≤ (order_points q).p2.psum ∧ q.p3.psum ≤ (order_points q).p2.psum) := by
  have hmin := argmin4_le (q.get 0).psum (q.get 1).psum (q.get 2).psum (q.get 3).psum
  have hmax := le_argmax4 (q.get 0).psum (q.get 1).psum (q.get 2).psum (q.get 3).psum
  rw [← psum_nth4 q] at hmin hmax
  exact ⟨⟨hmin.1, hmin.2.1, hmin.2.2.1, hmin.2.2.2⟩,
    ⟨hmax.1, hmax.2.1, hmax.2.2.1, hmax.2.2.2⟩⟩

/-- C1 (amended): row 1 of the `order_points` output (top-right) has the
minimal value of `y - x` (the quantity `np.diff` computes) among the four
input points, row 3 (bottom-left) the maximal one; consequently
`tr.x - tr.y` is greater than or equal to `bl.x - bl.y`, not less. -/
theorem order_points_diff_extremes (q : Quad) :
    ((order_points q).p1.pdiff ≤ q.p0.pdiff ∧ (order_points q).p1.pdiff ≤ q.p1.pdiff ∧
      (order_points q).p1.pdiff ≤ q.p2.pdiff ∧ (order_points q).p1.pdiff ≤ q.p3.pdiff) ∧
    (q.p0.pdiff ≤ (order_points q).p3.pdiff ∧ q.p1.pdiff ≤ (order_points q).p3.pdiff ∧
      q.p2.pdiff ≤ (order_points q).p3.pdiff ∧ q.p3.pdiff ≤ (order_points q).p3.pdiff) ∧
    (order_points q).p3.x - (order_points q).p3.y ≤
      (order_points q).p1.x - (order_points q).p1.y := by
  have hmin := argmin4_le (q.get 0).pdiff (q.get 1).pdiff (q.get 2).pdiff (q.get 3).pdiff
  have hmax := le_argmax4 (q.get 0).pdiff (q.get 1).pdiff (q.get 2).pdiff (q.get 3).pdiff
  rw [← pdiff_nth4 q] at hmin hmax
  refine ⟨⟨hmin.1, hmin.2.1, hmin.2.2.1, hmin.2.2.2⟩,
    ⟨hmax.1, hmax.2.1, hmax.2.2.1, hmax.2.2.2⟩, ?_⟩
  have h1 : (order_points q).p1.pdiff ≤ (order_points q).p3.pdiff :=
    le_trans hmin.1 hmax.1
  unfold Point.pdiff at h1
  linarith

/-- The concrete axis-aligned square used to refute C1 as stated. -/
def qC1 : Quad := ⟨⟨0, 0⟩, ⟨10, 0⟩, ⟨10, 10⟩, ⟨0, 10⟩⟩

/-- C1 (counterexample): on the axis-aligned square with corners (0,0), (10,0),
(10,10), (0,10) listed in that order, `order_points` returns `(10, 0)` as
top-right and `(0, 10)` as bottom-left, and `tr.x - tr.y = 10` is NOT `≤`
`bl.x - bl.y = -10`: the code minimizes `y - x` (what `np.diff` yields), not
`x - y` as the claim states. -/
theorem order_points_claimC1_cex :
    (order_points qC1).p1 = ⟨10, 0⟩ ∧ (order_points qC1).p3 = ⟨0, 10⟩ ∧
    ¬((order_points qC1).p1.x - (order_points qC1).p1.y ≤
        (order_points qC1).p3.x - (order_points qC1).p3.y) := by
  have h1 : (order_points qC1).p1 = ⟨10, 0⟩ := by
    show qC1.get (argmin4 (qC1.get 0).pdiff (qC1.get 1).pdiff
      (qC1.get 2).pdiff (qC1.get 3).pdiff) = (⟨10, 0⟩ : Point)
    rw [show argmin4 (qC1.get 0).pdiff (qC1.get 1).pdiff
        (qC1.get 2).pdiff (qC1.get 3).pdiff = 1 from
      argmin4_eq_one (by norm_num [qC1, Quad.get, nth4_zero, nth4_one, Point.pdiff])
        (by norm_num [qC1, Quad.get, nth4_one, nth4_two, Point.pdiff])
        (by norm_num [qC1, Quad.get, nth4_one, nth4_three, Point.pdiff])]
    rfl
  have h3 : (order_points qC1).p3 = ⟨0, 10⟩ := by
    show qC1.get (argmax4 (qC1.get 0).pdiff (qC1.get 1).pdiff
      (qC1.get 2).pdiff (qC1.get 3).pdiff) = (⟨0, 10⟩ : Point)
    rw [show argmax4 (qC1.get 0).pdiff (qC1.get 1).pdiff
        (qC1.get 2).pdiff (qC1.get 3).pdiff = 3 from
      argmax4_eq_three (by norm_num [qC1, Quad.get, nth4_zero, nth4_three, Point.pdiff])
        (by norm_num [qC1, Quad.get, nth4_one, nth4_three, Point.pdiff])
        (by norm_num [qC1, Quad.get, nth4_two, nth4_three, Point.pdiff])]
    rfl
  refine ⟨h1, h3, ?_⟩
  rw [h1, h3]
  norm_num

/-- C5: provided the four input points have a strictly smallest coordinate sum,
a strictly largest coordinate sum, a strictly smallest difference `y - x` and a
strictly largest difference `y - x`, realized at four pairwise-distinct rows
(this is the precise content of "convex, non-degenerate, roughly axis-aligned":
each of the four corner roles is played by a different input point), the output
of `order_points` is a permutation of the input: no point is invented,
duplicated, or dropped. -/
theorem order_points_perm (q : Quad) (i0 i1 i2 i3 : Fin 4)
    (h01 : i0 ≠ i1) (h02 : i0 ≠ i2) (h03 : i0 ≠ i3)
    (h12 : i1 ≠ i2) (h13 : i1 ≠ i3) (h23 : i2 ≠ i3)
    (hs0 : ∀ j, j ≠ i0 → (q.get i0).psum < (q.get j).psum)
    (hs2 : ∀ j, j ≠ i2 → (q.get j).psum < (q.get i2).psum)
    (hd1 : ∀ j, j ≠ i1 → (q.get i1).pdiff < (q.get j).pdiff)
    (hd3 : ∀ j, j ≠ i3 → (q.get j).pdiff < (q.get i3).pdiff) :
    (order_points q).toList.Perm q.toList := by
  have e0 : argmin4 (q.get 0).psum (q.get 1).psum (q.get 2).psum (q.get 3).psum = i0 :=
    argmin4_eq (fun i => (q.get i).psum) i0 hs0
  have e2 : argmax4 (q.get 0).psum (q.get 1).psum (q.get 2).psum (q.get 3).psum = i2 :=
    argmax4_eq (fun i => (q.get i).psum) i2 hs2
  have e1 : argmin4 (q.get 0).pdiff (q.get 1).pdiff (q.get 2).pdiff (q.get 3).pdiff = i1 :=
    argmin4_eq (fun i => (q.get i).pdiff) i1 hd1
  have e3 : argmax4 (q.get 0).pdiff (q.get 1).pdiff (q.get 2).pdiff (q.get 3).pdiff = i3 :=
    argmax4_eq (fun i => (q.get i).pdiff) i3 hd3
  have hop : order_points q = ⟨q.get i0, q.get i1, q.get i2, q.get i3⟩ := by
    unfold order_points
    rw [e0, e1, e2, e3]
  rw [hop]
  have hperm := (fin4_perm i0 i1 i2 i3 h01 h02 h03 h12 h13 h23).map q.get
  simp only [List.map_cons, List.map_nil] at hperm
  have hback : [q.get 0, q.get 1, q.get 2, q.get 3] = q.toList := rfl
  rw [hback] at hperm
  exact hperm

/-- The concrete slightly-skewed quadrilateral used as a witness for C5. -/
def qC5 : Quad := ⟨⟨0, 0⟩, ⟨10, 1⟩, ⟨9, 9⟩, ⟨1, 10⟩⟩

/-- C5 (witness): `order_points_perm` applied to the concrete quadrilateral
(0,0), (10,1), (9,9), (1,10), whose corner roles are realized at rows
0, 1, 2, 3 respectively. -/
theorem order_points_perm_witness :
    (order_points qC5).toList.Perm qC5.toList := by
  refine order_points_perm qC5 0 1 2 3 (by decide) (by decide) (by decide)
    (by decide) (by decide) (by decide) ?_ ?_ ?_ ?_ <;>
    · intro j hj
      fin_cases j <;>
        first
          | exact absurd rfl hj
          | norm_num [qC5, Quad.get, nth4, Point.psum, Point.pdiff]

/-- A contour: the ordered list of boundary points OpenCV traces. -/
abbrev Contour : Type := List Point

/-- `cv2.contourArea(c)`: half the absolute value of the shoelace sum over the
closed polygon (OpenCV returns the unsigned area by default). -/
def contourArea (c : Contour) : ℚ :=
  |(((c.zip (c.rotate 1)).map fun pq => pq.1.x * pq.2.y - pq.2.x * pq.1.y).sum)| / 2

/-- Insert a contour into a list already sorted by descending area, before the
first strictly smaller element (equal areas keep the earlier element first, the
tie behaviour of Python's stable `sorted`). -/
def insertByArea (c : Contour) : List Contour → List Contour
  | [] => [c]
  | d :: ds => if contourArea d ≤ contourArea c then c :: d :: ds else d :: insertByArea c ds

/-- `sorted(cnts, key=cv2.contourArea, reverse=True)`: stable sort by
descending area. -/
def sortAreaDesc : List Contour → List Contour
  | [] => []
  | c :: cs => insertByArea c (sortAreaDesc cs)

lemma insertByArea_perm (c : Contour) (l : List Contour) :
    (insertByArea c l).Perm (c :: l) := by
  induction l with
  | nil => exact List.Perm.refl _
  | cons d ds ih =>
    simp only [insertByArea]
    split_ifs with h
    · exact List.Perm.refl _
    · exact (ih.cons d).trans (List.Perm.swap c d ds)

lemma sortAreaDesc_perm (l : List Contour) : (sortAreaDesc l).Perm l := by
  induction l with
  | nil => exact List.Perm.refl _
  | cons c cs ih =>
    exact (insertByArea_perm c (sortAreaDesc cs)).trans (ih.cons c)

lemma insertByArea_sorted (c : Contour) (l : List Contour)
    (h : List.Sorted (fun a b => contourArea b ≤ contourArea a) l) :
    List.Sorted (fun a b => contourArea b ≤ contourArea a) (insertByArea c l) := by
  induction l with
  | nil => simp [insertByArea]
  | cons d ds ih =>
    simp only [insertByArea]
    split_ifs with hcd
    · rw [List.sorted_cons]
      refine ⟨?_, h⟩
      intro b hb
      rcases List.mem_cons.mp hb with rfl | hb
      · exact hcd
      · exact le_trans ((List.sorted_cons.mp h).1 b hb) hcd
    · rw [List.sorted_cons]
      constructor
      · intro b hb
        have hmem : b = c ∨ b ∈ ds :=
          List.mem_cons.mp ((insertByArea_perm c ds).mem_iff.mp hb)
        rcases hmem with rfl | hb'
        · exact (not_le.mp hcd).le
        · exact (List.sorted_cons.mp h).1 b hb'
      · exact ih (List.sorted_cons.mp h).2

lemma sortAreaDesc_sorted (l : List Contour) :
    List.Sorted (fun a b => contourArea b ≤ contourArea a) (sortAreaDesc l) := by
  induction l with
  | nil => simp [sortAreaDesc]
  | cons c cs ih => exact insertByArea_sorted c (sortAreaDesc cs) ih

/-- The OpenCV primitives the notebook calls but does not implement: they are
external collaborators, bundled as an abstract record over an image type `Img`
and a perspective-matrix type `M`.  Sizes passed to `resize` and
`warpPerspective` are `(width, height)` pairs, as in OpenCV. -/
structure CVOps (Img M : Type) where
  imread : String → Img
  height : Img → ℕ
  width : Img → ℕ
  resize : Img → ℕ × ℕ → Img
  cvtColorGray : Img → Img
  gaussianBlur : Img → Img
  canny : Img → Img
  dilate : Img → Img
  erode : Img → Img
  findContours : Img → List Contour
  arcLength : Contour → ℚ
  approxPolyDP : Contour → ℚ → Contour
  getPerspectiveTransform : List Point → List Point → M
  warpPerspective : Img → M → ℕ × ℕ → Img
  adaptiveThreshold : Img → Img

/-- `cv2.approxPolyDP(c, 0.02 * cv2.arcLength(c, True), True)`: simplify `c`
with tolerance equal to 2% of its perimeter. -/
def approxOf {Img M : Type} (cv : CVOps Img M) (c : Contour) : Contour :=
  cv.approxPolyDP c (2 / 100 * cv.arcLength c)

/-- The selection loop of `scan_document`: walk the candidate list in order,
simplify each contour, and return the first simplification with exactly 4
vertices (`screenCnt = approx; break`), or `none` if the list is exhausted. -/
def findFirst4 {Img M : Type} (cv : CVOps Img M) : List Contour → Option Contour
  | [] => none
  | c :: rest =>
    if (approxOf cv c).length = 4 then some (approxOf cv c) else findFirst4 cv rest

lemma findFirst4_eq_find {Img M : Type} (cv : CVOps Img M) (l : List Contour) :
    findFirst4 cv l =
      (l.find? fun c => (approxOf cv c).length == 4).map (approxOf cv) := by
  induction l with
  | nil => rfl
  | cons c rest ih =>
    by_cases h : (approxOf cv c).length = 4
    · simp [findFirst4, List.find?_cons, h]
    · simp [findFirst4, List.find?_cons, h, ih]

/-- C2: the quadrilateral selector of `scan_document` sorts the contours by
descending enclosed area (a permutation of the input list, sorted so that
areas are non-increasing), truncates to at most 5 candidates, and for that
candidate pool the loop returns exactly the first candidate (in pool order)
whose Douglas-Peucker simplification at tolerance 2% of its perimeter has
exactly 4 vertices — `List.find?` semantics: first found wins, no later
candidate is examined. -/
theorem quad_selector_spec {Img M : Type} (cv : CVOps Img M) (cnts : List Contour) :
    (sortAreaDesc cnts).Perm cnts ∧
    List.Sorted (fun a b => contourArea b ≤ contourArea a) (sortAreaDesc cnts) ∧
    ((sortAreaDesc cnts).take 5).length ≤ 5 ∧
    findFirst4 cv ((sortAreaDesc cnts).take 5) =
      (((sortAreaDesc cnts).take 5).find? fun c =>
          (approxOf cv c).length == 4).map (approxOf cv) := by
  refine ⟨sortAreaDesc_perm cnts, sortAreaDesc_sorted cnts, ?_, findFirst4_eq_find cv _⟩
  simp

/-- Bounded downward search for the integer square root: `isqrtGo n k` is the
largest `j ≤ k` with `j * j ≤ n` (or `0`). -/
def isqrtGo (n : ℕ) : ℕ → ℕ
  | 0 => 0
  | (k+1) => if (k+1) * (k+1) ≤ n then k+1 else isqrtGo n k

lemma isqrtGo_sq_le (n : ℕ) : ∀ k, isqrtGo n k * isqrtGo n k ≤ n := by
  intro k
  induction k with
  | zero => simp [isqrtGo]
  | succ k ih =>
    simp only [isqrtGo]
    split_ifs with h
    · exact h
    · exact ih

lemma lt_isqrtGo_succ_sq (n : ℕ) : ∀ k, n < (k+1) * (k+1) →
    n < (isqrtGo n k + 1) * (isqrtGo n k + 1) := by
  intro k
  induction k with
  | zero =>
    intro h
    simpa [isqrtGo] using h
  | succ k ih =>
    intro h
    simp only [isqrtGo]
    split_ifs with hk
    · exact h
    · exact ih (Nat.lt_of_not_le hk)

/-- `int(np.sqrt(q))` for a nonnegative rational `q`: truncation toward zero of
the real square root, computed as the integer square root of `⌊q⌋`. -/
def intSqrt (q : ℚ) : ℕ := isqrtGo (⌊q⌋).toNat (⌊q⌋).toNat

/-- `IsTrunc q n` says `n = ⌊√q⌋`: the truncated-toward-zero (`int(...)` in
Python) value of the Euclidean length whose square is `q`, characterized
without square roots as `n² ≤ q < (n+1)²`. -/
def IsTrunc (q : ℚ) (n : ℕ) : Prop := ((n : ℚ))^2 ≤ q ∧ q < ((n : ℚ) + 1)^2

lemma intSqrt_isTrunc (q : ℚ) (hq : 0 ≤ q) : IsTrunc q (intSqrt q) := by
  have h0 : (0 : ℤ) ≤ ⌊q⌋ := Int.floor_nonneg.mpr hq
  set m : ℕ := (⌊q⌋).toNat with hm
  have hmq : ((m : ℕ) : ℚ) ≤ q := by
    have : ((m : ℕ) : ℤ) = ⌊q⌋ := by rw [hm, Int.toNat_of_nonneg h0]
    calc ((m : ℕ) : ℚ) = ((⌊q⌋ : ℤ) : ℚ) := by exact_mod_cast congrArg (fun z : ℤ => (z : ℚ)) this
      _ ≤ q := Int.floor_le q
  have hqm : q < ((m : ℕ) : ℚ) + 1 := by
    have : ((m : ℕ) : ℤ) = ⌊q⌋ := by rw [hm, Int.toNat_of_nonneg h0]
    have h1 := Int.lt_floor_add_one q
    calc q < ((⌊q⌋ : ℤ) : ℚ) + 1 := h1
      _ = ((m : ℕ) : ℚ) + 1 := by exact_mod_cast congrArg (fun z : ℤ => (z : ℚ) + 1) this.symm
  have hlo : intSqrt q * intSqrt q ≤ m := isqrtGo_sq_le m m
  have hhi : m < (intSqrt q + 1) * (intSqrt q + 1) := by
    apply lt_isqrtGo_succ_sq m m
    nlinarith
  constructor
  · have : ((intSqrt q * intSqrt q : ℕ) : ℚ) ≤ (m : ℚ) := by exact_mod_cast hlo
    calc ((intSqrt q : ℚ))^2 = ((intSqrt q * intSqrt q : ℕ) : ℚ) := by push_cast; ring
      _ ≤ (m : ℚ) := this
      _ ≤ q := hmq
  · have h2 : (m : ℚ) + 1 ≤ (((intSqrt q + 1) * (intSqrt q + 1) : ℕ) : ℚ) := by
      exact_mod_cast Nat.succ_le_of_lt hhi
    calc q < (m : ℚ) + 1 := hqm
      _ ≤ (((intSqrt q + 1) * (intSqrt q + 1) : ℕ) : ℚ) := h2
      _ = ((intSqrt q : ℚ) + 1)^2 := by push_cast; ring

/-- Squared Euclidean distance; the quantity under `np.sqrt` in
`four_point_transform`. -/
def sqDist (p q : Point) : ℚ := (p.x - q.x)^2 + (p.y - q.y)^2

/-- `screenCnt.reshape(4, 2)` read into a `Quad` (rows 0-3 of the list; valid
on the 4-point lists the selector produces). -/
def toQuad (pts : List Point) : Quad :=
  ⟨pts.getD 0 ⟨0, 0⟩, pts.getD 1 ⟨0, 0⟩, pts.getD 2 ⟨0, 0⟩, pts.getD 3 ⟨0, 0⟩⟩

/-- `rect = order_points(pts)` inside `four_point_transform`. -/
def fourPointRect (pts : List Point) : Quad := order_points (toQuad pts)

/-- `(maxWidth, maxHeight)`: `maxWidth = max(int(widthA), int(widthB))` with
`widthA = √sqDist(br, bl)`, `widthB = √sqDist(tr, tl)`, and analogously
`maxHeight` from `heightA = √sqDist(tr, br)`, `heightB = √sqDist(tl, bl)`. -/
def fourPointDims (pts : List Point) : ℕ × ℕ :=
  (max (intSqrt (sqDist (fourPointRect pts).p2 (fourPointRect pts).p3))
       (intSqrt (sqDist (fourPointRect pts).p1 (fourPointRect pts).p0)),
   max (intSqrt (sqDist (fourPointRect pts).p1 (fourPointRect pts).p2))
       (intSqrt (sqDist (fourPointRect pts).p0 (fourPointRect pts).p3)))

/-- The destination rectangle `dst` of `four_point_transform`:
`[[0,0], [maxWidth-1, 0], [maxWidth-1, maxHeight-1], [0, maxHeight-1]]`. -/
def fourPointDst (pts : List Point) : List Point :=
  [⟨0, 0⟩,
   ⟨((fourPointDims pts).1 : ℚ) - 1, 0⟩,
   ⟨((fourPointDims pts).1 : ℚ) - 1, ((fourPointDims pts).2 : ℚ) - 1⟩,
   ⟨0, ((fourPointDims pts).2 : ℚ) - 1⟩]

/-- `four_point_transform(image, pts)`: order the corners, derive the
destination size, solve the homography `rect → dst` and warp the image into a
`maxWidth × maxHeight` destination.  There is no branch: every input,
degenerate or not, flows into the warp. -/
def four_point_transform {Img M : Type} (cv : CVOps Img M) (image : Img)
    (pts : List Point) : Img :=
  cv.warpPerspective image
    (cv.getPerspectiveTransform (fourPointRect pts).toList (fourPointDst pts))
    (fourPointDims pts)

/-- C4 (amended): the rectifier's destination size is
`maxWidth = max(trunc(widthA), trunc(widthB))` and
`maxHeight = max(trunc(heightA), trunc(heightB))` — Python's `int(...)`, i.e.
truncation toward zero of the four corner-to-corner Euclidean distances, NOT
rounding to the nearest integer — and the homography destination corners are
`(0,0), (maxWidth-1, 0), (maxWidth-1, maxHeight-1), (0, maxHeight-1)`. -/
theorem four_point_dims_spec (pts : List Point) :
    ∃ wA wB hA hB : ℕ,
      IsTrunc (sqDist (fourPointRect pts).p2 (fourPointRect pts).p3) wA ∧
      IsTrunc (sqDist (fourPointRect pts).p1 (fourPointRect pts).p0) wB ∧
      IsTrunc (sqDist (fourPointRect pts).p1 (fourPointRect pts).p2) hA ∧
      IsTrunc (sqDist (fourPointRect pts).p0 (fourPointRect pts).p3) hB ∧
      fourPointDims pts = (max wA wB, max hA hB) ∧
      fourPointDst pts =
        [⟨0, 0⟩, ⟨((max wA wB : ℕ) : ℚ) - 1, 0⟩,
         ⟨((max wA wB : ℕ) : ℚ) - 1, ((max hA hB : ℕ) : ℚ) - 1⟩,
         ⟨0, ((max hA hB : ℕ) : ℚ) - 1⟩] := by
  refine ⟨_, _, _, _,
    intSqrt_isTrunc _ (by unfold sqDist; positivity),
    intSqrt_isTrunc _ (by unfold sqDist; positivity),
    intSqrt_isTrunc _ (by unfold sqDist; positivity),
    intSqrt_isTrunc _ (by unfold sqDist; positivity),
    rfl, rfl⟩

/-- `RoundIs q n` says `n` is the nearest integer to `√q` (for `n ≥ 1`):
`n - 1/2 ≤ √q < n + 1/2`, characterized without square roots. -/
def RoundIs (q : ℚ) (n : ℕ) : Prop :=
  ((n : ℚ) - 1/2)^2 ≤ q ∧ q < ((n : ℚ) + 1/2)^2

/-- The concrete tilted square used to refute C4 as stated: all four sides
have squared length 13, and √13 ≈ 3.606 truncates to 3 but rounds to 4. -/
def qC4 : List Point := [⟨0, 0⟩, ⟨3, -2⟩, ⟨1, 1⟩, ⟨-2, 3⟩]

lemma fourPointRect_qC4 : fourPointRect qC4 = ⟨⟨0, 0⟩, ⟨3, -2⟩, ⟨1, 1⟩, ⟨-2, 3⟩⟩ := by
  unfold fourPointRect order_points
  rw [argmin4_eq_zero (a := (Quad.get (toQuad qC4) 0).psum)
      (by norm_num [toQuad, qC4, Quad.get, nth4_zero, nth4_one, Point.psum])
      (by norm_num [toQuad, qC4, Quad.get, nth4_zero, nth4_two, Point.psum])
      (by norm_num [toQuad, qC4, Quad.get, nth4_zero, nth4_three, Point.psum]),
    argmax4_eq_two (a := (Quad.get (toQuad qC4) 0).psum)
      (by norm_num [toQuad, qC4, Quad.get, nth4_zero, nth4_two, Point.psum])
      (by norm_num [toQuad, qC4, Quad.get, nth4_one, nth4_two, Point.psum])
      (by norm_num [toQuad, qC4, Quad.get, nth4_two, nth4_three, Point.psum]),
    argmin4_eq_one (a := (Quad.get (toQuad qC4) 0).pdiff)
      (by norm_num [toQuad, qC4, Quad.get, nth4_zero, nth4_one, Point.pdiff])
      (by norm_num [toQuad, qC4, Quad.get, nth4_one, nth4_two, Point.pdiff])
      (by norm_num [toQuad, qC4, Quad.get, nth4_one, nth4_three, Point.pdiff]),
    argmax4_eq_three (a := (Quad.get (toQuad qC4) 0).pdiff)
      (by norm_num [toQuad, qC4, Quad.get, nth4_zero, nth4_three, Point.pdiff])
      (by norm_num [toQuad, qC4, Quad.get, nth4_one, nth4_three, Point.pdiff])
      (by norm_num [toQuad, qC4, Quad.get, nth4_two, nth4_three, Point.pdiff])]
  rfl

lemma intSqrt_thirteen : intSqrt (13 : ℚ) = 3 := by
  have hf : ⌊(13 : ℚ)⌋ = 13 := by norm_num
  unfold intSqrt
  rw [hf]
  decide

/-- C4 (counterexample): on the tilted square (0,0), (3,-2), (1,1), (-2,3) all
four corner distances are √13; the nearest integer to each is 4, so the claim
predicts `maxWidth = max(4, 4) = 4`, but the code computes
`max(int(√13), int(√13)) = 3`: `int(...)` truncates and does not round. -/
theorem four_point_dims_claimC4_cex :
    (fourPointDims qC4).1 = 3 ∧
    RoundIs (sqDist (fourPointRect qC4).p2 (fourPointRect qC4).p3) 4 ∧
    RoundIs (sqDist (fourPointRect qC4).p1 (fourPointRect qC4).p0) 4 ∧
    max 4 4 ≠ 3 := by
  have hd1 : sqDist (fourPointRect qC4).p2 (fourPointRect qC4).p3 = 13 := by
    rw [fourPointRect_qC4]
    norm_num [sqDist]
  have hd2 : sqDist (fourPointRect qC4).p1 (fourPointRect qC4).p0 = 13 := by
    rw [fourPointRect_qC4]
    norm_num [sqDist]
  refine ⟨?_, ?_, ?_, by norm_num⟩
  · show max (intSqrt (sqDist (fourPointRect qC4).p2 (fourPointRect qC4).p3))
        (intSqrt (sqDist (fourPointRect qC4).p1 (fourPointRect qC4).p0)) = 3
    rw [hd1, hd2, intSqrt_thirteen]
    exact max_self 3
  · rw [hd1]
    unfold RoundIs
    norm_num
  · rw [hd2]
    unfold RoundIs
    norm_num

/-- A degenerate corner set — four identical points — yields destination size
`(0, 0)`. -/
lemma fourPointDims_const (p : Point) : fourPointDims [p, p, p, p] = (0, 0) := by
  have hq : toQuad [p, p, p, p] = ⟨p, p, p, p⟩ := rfl
  have hrect : fourPointRect [p, p, p, p] = ⟨p, p, p, p⟩ := by
    unfold fourPointRect
    rw [hq]
    unfold order_points argmin4 argmax4
    simp [Quad.get, nth4_zero, nth4_one, nth4_two, nth4_three, le_refl]
  have hz : sqDist p p = 0 := by simp [sqDist]
  have hf0 : ⌊(0 : ℚ)⌋ = 0 := by norm_num
  have hs : intSqrt (0 : ℚ) = 0 := by
    unfold intSqrt
    rw [hf0]
    rfl
  unfold fourPointDims
  rw [hrect]
  simp only [hz, hs]
  rfl

/-- C7 (amended): `four_point_transform` contains no degeneracy check and no
failure value: for every corner set it unconditionally computes the homography
and warps into a `maxWidth × maxHeight` destination, and for a degenerate
corner set of four identical points that destination is `0 × 0` — the warp is
still invoked, with destination size `(0, 0)`. -/
theorem four_point_transform_no_guard {Img M : Type} (cv : CVOps Img M)
    (image : Img) (p : Point) :
    fourPointDims [p, p, p, p] = (0, 0) ∧
    four_point_transform cv image [p, p, p, p] =
      cv.warpPerspective image
        (cv.getPerspectiveTransform (fourPointRect [p, p, p, p]).toList
          (fourPointDst [p, p, p, p]))
        (0, 0) := by
  refine ⟨fourPointDims_const p, ?_⟩
  unfold four_point_transform
  rw [fourPointDims_const p]

/-- A concrete instantiation of the external collaborators in which an image
is represented by its `(width, height)` size alone and `warpPerspective`
returns the requested destination size; it makes the size of the image
returned by the rectifier observable. -/
def cvSize : CVOps (ℕ × ℕ) Unit :=
  { imread := fun _ => (0, 0)
    height := fun s => s.2
    width := fun s => s.1
    resize := fun _ s => s
    cvtColorGray := id
    gaussianBlur := id
    canny := id
    dilate := id
    erode := id
    findContours := fun _ => []
    arcLength := fun _ => 0
    approxPolyDP := fun c _ => c
    getPerspectiveTransform := fun _ _ => ()
    warpPerspective := fun _ _ dsize => dsize
    adaptiveThreshold := id }

/-- C7 (counterexample): on the degenerate corner set of four copies of
(1, 1), the rectifier does not report any failure — it silently returns a
zero-sized image (under the size-observing instantiation `cvSize`, the 9 × 9
input is warped to the empty 0 × 0 image). -/
theorem four_point_transform_zero_cex :
    four_point_transform cvSize (9, 9) [⟨1, 1⟩, ⟨1, 1⟩, ⟨1, 1⟩, ⟨1, 1⟩] = (0, 0) := by
  show fourPointDims [(⟨1, 1⟩ : Point), ⟨1, 1⟩, ⟨1, 1⟩, ⟨1, 1⟩] = (0, 0)
  exact fourPointDims_const ⟨1, 1⟩

/-- Observable outcome of one `scan_document` call: the Python return value
(`none` models the bare `return` / `None`, `some (a, b)` the tuple
`return image, T`), the lines written to standard output by `print`, and the
files read (via `cv2.imread`). -/
structure ScanRet (Img : Type) where
  retval : Option (Img × Img)
  printed : List String
  filesRead : List String
deriving Repr

/-- The diagnostic message `scan_document` prints when no candidate contour
simplifies to 4 vertices. -/
def noDocMsg : String := "No document detected. Please try another image."

/-- `image = cv2.imread(image_path)`. -/
def scanOrig {Img M : Type} (cv : CVOps Img M) (path : String) : Img :=
  cv.imread path

/-- `ratio = image.shape[0] / 500.0`. -/
def scanRatio {Img M : Type} (cv : CVOps Img M) (path : String) : ℚ :=
  (cv.height (scanOrig cv path) : ℚ) / 500

/-- `image = cv2.resize(image, (int(image.shape[1] / ratio), 500))`: the
working copy, resized to height exactly 500. -/
def scanResized {Img M : Type} (cv : CVOps Img M) (path : String) : Img :=
  cv.resize (scanOrig cv path)
    ((⌊(cv.width (scanOrig cv path) : ℚ) / scanRatio cv path⌋).toNat, 500)

/-- Grayscale, 5×5 Gaussian blur, Canny 75/200, then one dilation and one
erosion with a 3×3 kernel: the edge map of the working copy. -/
def scanEdged {Img M : Type} (cv : CVOps Img M) (path : String) : Img :=
  cv.erode (cv.dilate (cv.canny (cv.gaussianBlur (cv.cvtColorGray (scanResized cv path)))))

/-- `sorted(cnts, key=cv2.contourArea, reverse=True)[:5]`: the candidate
pool handed to the selection loop. -/
def scanPool {Img M : Type} (cv : CVOps Img M) (path : String) : List Contour :=
  (sortAreaDesc (cv.findContours (scanEdged cv path))).take 5

/-- `screenCnt.reshape(4, 2) * ratio`: scale the selected (resized-image
space) quadrilateral back to full-resolution coordinates. -/
def scaleContour (r : ℚ) (c : Contour) : Contour :=
  c.map fun p => ⟨p.x * r, p.y * r⟩

/-- `scan_document(image_path)` from the notebook: read the image at the
given path, resize to height 500, compute the edge map, pick the candidate
quadrilateral; if none is found, print the diagnostic and return bare `None`,
otherwise warp the full-resolution original through the selected corners
(scaled by `ratio`), grayscale and adaptively threshold it, and return the
pair `(resized working copy, thresholded warp)`. -/
def scan_document {Img M : Type} (cv : CVOps Img M) (image_path : String) :
    ScanRet Img :=
  match findFirst4 cv (scanPool cv image_path) with
  | none => ⟨none, [noDocMsg], [image_path]⟩
  | some screenCnt =>
      ⟨some (scanResized cv image_path,
          cv.adaptiveThreshold (cv.cvtColorGray
            (four_point_transform cv (scanOrig cv image_path)
              (scaleContour (scanRatio cv image_path) screenCnt)))),
        [], [image_path]⟩

/-- C3 (amended): when no candidate among the (at most 5) pooled contours
simplifies to exactly 4 vertices, `scan_document` prints
"No document detected. Please try another image." to standard output and
returns the single bare value `None` — an untagged sentinel, together with one
line of logging, not a silent tagged failure result. -/
theorem scan_document_no_document {Img M : Type} (cv : CVOps Img M) (path : String)
    (h : findFirst4 cv (scanPool cv path) = none) :
    scan_document cv path = ⟨none, [noDocMsg], [path]⟩ := by
  unfold scan_document
  rw [h]

/-- A trivial instantiation of the external collaborators over the one-point
image type, whose contour trace finds no contours at all (the featureless
image of §8). -/
def cvUnit : CVOps Unit Unit :=
  { imread := fun _ => ()
    height := fun _ => 1000
    width := fun _ => 800
    resize := fun _ _ => ()
    cvtColorGray := id
    gaussianBlur := id
    canny := id
    dilate := id
    erode := id
    findContours := fun _ => []
    arcLength := fun _ => 0
    approxPolyDP := fun c _ => c
    getPerspectiveTransform := fun _ _ => ()
    warpPerspective := fun i _ _ => i
    adaptiveThreshold := id }

/-- C3 (witness): `scan_document_no_document` at the concrete collaborators
`cvUnit` (no contours found) and a concrete path. -/
theorem scan_document_no_document_witness :
    scan_document cvUnit "x.jpg" = ⟨none, [noDocMsg], ["x.jpg"]⟩ :=
  scan_document_no_document cvUnit "x.jpg" rfl

/-- C3 (counterexample): on the no-document path the core does log — the
returned outcome carries a non-empty list of printed lines — contradicting
"the core performs no logging (no output other than the returned result)". -/
theorem scan_document_printed_cex :
    (scan_document cvUnit "a.jpg").retval = none ∧
    (scan_document cvUnit "a.jpg").printed = [noDocMsg] ∧
    (scan_document cvUnit "a.jpg").printed ≠ [] := by
  refine ⟨rfl, rfl, ?_⟩
  exact List.cons_ne_nil _ _

/-- C9 (amended): `scan_document` takes a file path, not a decoded image, and
reads exactly the file at that path (one `cv2.imread` call) on every
invocation — on both the success and the no-document paths. -/
theorem scan_document_reads_input {Img M : Type} (cv : CVOps Img M) (path : String) :
    (scan_document cv path).filesRead = [path] := by
  unfold scan_document
  cases findFirst4 cv (scanPool cv path) <;> rfl

/-- C9 (counterexample): a concrete invocation of `scan_document` reads a
file — its list of files read is not empty — contradicting "no files, paths,
or environment variables are read or written by the core". -/
theorem scan_document_file_read_cex :
    (scan_document cvUnit "sample_images/dollar_bill.JPG").filesRead =
      ["sample_images/dollar_bill.JPG"] ∧
    (scan_document cvUnit "sample_images/dollar_bill.JPG").filesRead ≠ [] := by
  refine ⟨rfl, ?_⟩
  exact List.cons_ne_nil _ _

/-- C10: the Python return value of `scan_document` is the image of the
selection result under `Option.map`: when a 4-vertex candidate is found the
function returns the pair whose first component is the resized working copy
(requested size `(int(width/ratio), 500)`, height 500 — not the
full-resolution original, which is only used as the warp source) and whose
second component is the adaptively-thresholded grayscale of the warped
original; when no candidate is found it returns the single bare value `None`
(`Option.map` of `none`), so no pair exists for a caller to unpack. -/
theorem scan_document_return_shape {Img M : Type} (cv : CVOps Img M) (path : String) :
    (scan_document cv path).retval =
      (findFirst4 cv (scanPool cv path)).map (fun sc =>
        (scanResized cv path,
         cv.adaptiveThreshold (cv.cvtColorGray
           (four_point_transform cv (scanOrig cv path)
             (scaleContour (scanRatio cv path) sc))))) ∧
    scanResized cv path =
      cv.resize (cv.imread path)
        ((⌊(cv.width (cv.imread path) : ℚ) /
            ((cv.height (cv.imread path) : ℚ) / 500)⌋).toNat, 500) := by
  constructor
  · unfold scan_document
    cases findFirst4 cv (scanPool cv path) <;> rfl
  · rfl

/-- A single-channel raster for the binarizer model: intensity at each integer
pixel position (an infinite grid; border replication of a finite image extends
it to one, and the binarizer is a per-pixel local operation). -/
def BImage : Type := ℤ × ℤ → ℚ

/-- The 11×11 neighbourhood offsets of the adaptive threshold's block size. -/
def window : Finset (ℤ × ℤ) :=
  Finset.Icc (-5 : ℤ) 5 ×ˢ Finset.Icc (-5 : ℤ) 5

/-- The weighted 11×11 local mean around `p` with weight mask `w`: the
quantity `cv2.adaptiveThreshold(..., ADAPTIVE_THRESH_GAUSSIAN_C, ..., 11, ...)`
computes per pixel, with `w` the (nonnegative, total-mass-1) Gaussian mask. -/
def gaussianMean (w : ℤ × ℤ → ℚ) (img : BImage) (p : ℤ × ℤ) : ℚ :=
  ∑ d ∈ window, w d * img (p.1 + d.1, p.2 + d.2)

/-- The binarizer of `scan_document`:
`cv2.adaptiveThreshold(warped, 255, ADAPTIVE_THRESH_GAUSSIAN_C, THRESH_BINARY, 11, 2)`
— per §4.6 of the collaborator's interface, pixel `p` becomes 255 when its
value exceeds the 11×11 Gaussian-weighted local mean minus the constant 2,
else 0. -/
def adaptiveThresholdGauss (w : ℤ × ℤ → ℚ) (img : BImage) : BImage :=
  fun p => if gaussianMean w img p - 2 < img p then 255 else 0

/-- The all-black image: every pixel 0, hence already at one of the two
extreme values the binarizer produces. -/
def imgBlack : BImage := fun _ => 0

/-- The all-white image: every pixel 255. -/
def imgWhite : BImage := fun _ => 255

/-- The binomial (discrete Gaussian) 11×11 mask with weights
`C(10, 5+i) * C(10, 5+j) / 2^20`. -/
def wBinom : ℤ × ℤ → ℚ :=
  fun d => ((Nat.choose 10 (d.1 + 5).toNat * Nat.choose 10 (d.2 + 5).toNat : ℕ) : ℚ) / 2 ^ 20

/-- The uniform 11×11 mask (nonnegative, total mass 1). -/
def wUnif : ℤ × ℤ → ℚ := fun _ => 1 / 121

lemma window_card : window.card = 121 := by
  unfold window
  rw [Finset.card_product, Int.card_Icc]
  decide

lemma wUnif_sum : ∑ d ∈ window, wUnif d = 1 := by
  have h : ∀ d ∈ window, wUnif d = 1 / 121 := fun d _ => rfl
  rw [Finset.sum_congr rfl h, Finset.sum_const, window_card]
  norm_num

/-- C8 (counterexample): the all-black image is already binary (pixel value 0
everywhere), yet re-applying the binarizer flips its pixels to 255: the local
mean is 0, the threshold is 0 − 2 = −2, and 0 > −2, so the output is 255, not
0.  The binarizer is not idempotent on already-binary images.  (The flip is
independent of the weight mask: any mask averages the all-zero neighbourhood
to 0; the binomial discrete-Gaussian mask is used here.) -/
theorem adaptive_threshold_idem_cex :
    (∀ p, imgBlack p = 0 ∨ imgBlack p = 255) ∧
    adaptiveThresholdGauss wBinom imgBlack (0, 0) = 255 ∧
    adaptiveThresholdGauss wBinom imgBlack (0, 0) ≠ imgBlack (0, 0) := by
  have hmean : gaussianMean wBinom imgBlack (0, 0) = 0 := by
    unfold gaussianMean imgBlack
    simp
  have hval : adaptiveThresholdGauss wBinom imgBlack (0, 0) = 255 := by
    unfold adaptiveThresholdGauss
    rw [hmean]
    norm_num [imgBlack]
  refine ⟨fun p => Or.inl rfl, hval, ?_⟩
  rw [hval]
  norm_num [imgBlack]

/-- C8 (amended): on a binary image (every pixel 0 or 255) and for any
nonnegative weight mask of total mass 1, re-applying the binarizer leaves
every 255 pixel unchanged, while a 0 pixel is left unchanged precisely when
its 11×11 weighted local mean is at least 2.  Idempotence therefore holds
exactly on those binary images whose black pixels all have local mean ≥ 2 —
e.g. it fails on the all-black image, whose black pixels have local mean 0. -/
theorem adaptive_threshold_binary_behavior (w : ℤ × ℤ → ℚ) (img : BImage)
    (p : ℤ × ℤ) (hw0 : ∀ d, 0 ≤ w d) (hw1 : ∑ d ∈ window, w d = 1)
    (hbin : ∀ q, img q = 0 ∨ img q = 255) :
    (img p = 255 → adaptiveThresholdGauss w img p = 255) ∧
    (img p = 0 →
      (adaptiveThresholdGauss w img p = img p ↔ 2 ≤ gaussianMean w img p)) := by
  have hle : gaussianMean w img p ≤ 255 := by
    have h1 : ∀ d ∈ window, w d * img (p.1 + d.1, p.2 + d.2) ≤ w d * 255 := by
      intro d _
      apply mul_le_mul_of_nonneg_left _ (hw0 d)
      rcases hbin (p.1 + d.1, p.2 + d.2) with h | h <;> rw [h]
      norm_num
    calc gaussianMean w img p ≤ ∑ d ∈ window, w d * 255 := Finset.sum_le_sum h1
      _ = (∑ d ∈ window, w d) * 255 := by rw [← Finset.sum_mul]
      _ = 255 := by rw [hw1]; ring
  constructor
  · intro h255
    unfold adaptiveThresholdGauss
    rw [if_pos]
    rw [h255]
    linarith
  · intro h0
    unfold adaptiveThresholdGauss
    rw [h0]
    constructor
    · intro h
      by_contra hlt
      push_neg at hlt
      rw [if_pos (by linarith)] at h
      norm_num at h
    · intro h
      rw [if_neg (by linarith)]

/-- C8 (witness): `adaptive_threshold_binary_behavior` at the uniform mask and
the all-white image — a 255 pixel is reproduced as 255. -/
theorem adaptive_threshold_binary_witness :
    adaptiveThresholdGauss wUnif imgWhite (0, 0) = 255 :=
  (adaptive_threshold_binary_behavior wUnif imgWhite (0, 0)
    (fun d => by norm_num [wUnif]) wUnif_sum (fun q => Or.inr rfl)).1 rfl

end DocScanner
